import Mathlib

/-!
Verification of the stack-usage analyzer (`scripts/ci/analyze_stack.py`).

The Python module parses GCC `.su` stack-usage files into `StackUsage`
records, builds a call graph, and computes worst-case stack paths.
This file is a shallow embedding of that module:

* a Python `dict` keyed by strings is modeled as an insertion-ordered
  association list with unique keys maintained by `dinsert`;
* a Python `set` of strings (the callee sets of the `defaultdict(set)`)
  is modeled as a duplicate-free list in insertion order;
* Python `str` values manipulated character by character (the `.su`
  parser) are modeled as `List Char`;
* the recursive solver `CallGraph.worst_case_stack` is translated
  directly; its termination is established with the measure
  `unvisitedCount` (functions not yet on the current path), mirroring
  the path-local `visited` set of the source;
* `worst_case_stack_op` is a fuel-indexed operational variant that
  threads the graph state through every dictionary access, used to
  verify that an invocation leaves the graph unchanged.
-/

/-- Stack usage record for a single function, field for field the
Python dataclass `StackUsage` (`stack_bytes` is a Python `int`,
hence `Int`; `line` comes from a `\d+` regex group, hence `Nat`). -/
structure StackUsage where
  function : String
  file : String
  line : Nat
  stack_bytes : Int
  qualifier : String
deriving DecidableEq

/-- Lookup in a Python `dict` modeled as an association list
(first matching key wins; dicts built by `dinsert` have unique keys). -/
def dlookup {β : Type} : List (String × β) → String → Option β
  | [], _ => none
  | (k, v) :: m, k' => if k = k' then some v else dlookup m k'

/-- Python `d[k] = v` on a `dict`: overwrite in place if the key exists
(keeping its position, as Python dicts do), otherwise append. -/
def dinsert {β : Type} : List (String × β) → String → β → List (String × β)
  | [], k, v => [(k, v)]
  | (k0, v0) :: m, k, v =>
      if k0 = k then (k, v) :: m else (k0, v0) :: dinsert m k v

/-- Python `set.add` on a string set modeled as a duplicate-free list. -/
def sadd (s : List String) (x : String) : List String :=
  if x ∈ s then s else s ++ [x]

/-- Python `defaultdict(set)`: `d[caller].add(callee)` — inserts an
empty set for a missing caller, then adds the callee. -/
def daddTo : List (String × List String) → String → String → List (String × List String)
  | [], caller, callee => [(caller, [callee])]
  | (k, v) :: m, caller, callee =>
      if k = caller then (k, sadd v callee) :: m
      else (k, v) :: daddTo m caller callee

/-- The Python class `CallGraph`: `functions` maps a function name to
its `StackUsage`; `calls` maps a caller to its set of callees. -/
structure CallGraph where
  functions : List (String × StackUsage)
  calls : List (String × List String)
deriving DecidableEq

/-- `CallGraph.__init__`: empty `functions` dict, empty `calls` defaultdict. -/
def CallGraph.empty : CallGraph := ⟨[], []⟩

/-- `CallGraph.add_function`: `self.functions[usage.function] = usage`. -/
def CallGraph.add_function (g : CallGraph) (usage : StackUsage) : CallGraph :=
  { g with functions := dinsert g.functions usage.function usage }

/-- `CallGraph.add_call`: `self.calls[caller].add(callee)`. -/
def CallGraph.add_call (g : CallGraph) (caller callee : String) : CallGraph :=
  { g with calls := daddTo g.calls caller callee }

/-- Filtering with a weaker predicate keeps at least as many elements. -/
theorem length_filter_le_of_imp {α : Type} (l : List α) (p q : α → Bool)
    (h : ∀ a, q a = true → p a = true) :
    (l.filter q).length ≤ (l.filter p).length := by
  induction l with
  | nil => simp
  | cons a t ih =>
      simp only [List.filter_cons]
      by_cases hq : q a = true
      · rw [if_pos hq, if_pos (h a hq)]
        simpa using ih
      · rw [if_neg hq]
        by_cases hp : p a = true
        · rw [if_pos hp]
          exact Nat.le_succ_of_le ih
        · rw [if_neg hp]
          exact ih

/-- Strict version: a member satisfying `p` but not `q` makes the
`q`-filtered list strictly shorter. -/
theorem length_filter_lt_of_witness {α : Type} (l : List α) (p q : α → Bool)
    (h : ∀ a, q a = true → p a = true) (x : α) (hx : x ∈ l)
    (hpx : p x = true) (hqx : q x = false) :
    (l.filter q).length < (l.filter p).length := by
  induction l with
  | nil => cases hx
  | cons a t ih =>
      simp only [List.filter_cons]
      rcases List.mem_cons.mp hx with rfl | hxt
      · rw [if_pos hpx, if_neg (by simp [hqx])]
        exact Nat.lt_succ_of_le (length_filter_le_of_imp t p q h)
      · by_cases hq : q a = true
        · rw [if_pos hq, if_pos (h a hq)]
          simpa using ih hxt
        · rw [if_neg hq]
          by_cases hp : p a = true
          · rw [if_pos hp]
            exact Nat.lt_succ_of_lt (ih hxt)
          · rw [if_neg hp]
            exact ih hxt

/-- Number of functions of the graph not on the current path; the
termination measure of the recursive solver. -/
def unvisitedCount (g : CallGraph) (visited : List String) : Nat :=
  ((g.functions.map Prod.fst).filter (fun k => ! decide (k ∈ visited))).length

/-- A successful `dlookup` key is among the stored keys. -/
theorem dlookup_mem_keys {β : Type} (m : List (String × β)) (k : String) (v : β)
    (h : dlookup m k = some v) : k ∈ m.map Prod.fst := by
  induction m with
  | nil => simp [dlookup] at h
  | cons p m ih =>
      obtain ⟨k0, v0⟩ := p
      simp only [dlookup] at h
      by_cases hk : k0 = k
      · subst hk; simp
      · rw [if_neg hk] at h
        simp [ih h]

/-- Visiting a known, not-yet-visited function strictly shrinks the
unvisited count: the solver's recursion is well founded. -/
theorem unvisitedCount_lt (g : CallGraph) (entry : String) (visited : List String)
    (hmem : entry ∈ g.functions.map Prod.fst) (hnv : entry ∉ visited) :
    unvisitedCount g (entry :: visited) < unvisitedCount g visited := by
  refine length_filter_lt_of_witness _ _ _ ?_ entry hmem ?_ ?_
  · intro a ha
    simp only [Bool.not_eq_true', decide_eq_false_iff_not, List.mem_cons] at ha ⊢
    exact fun hv => ha (Or.inr hv)
  · simpa using hnv
  · simp

/-- `CallGraph.worst_case_stack`, translated line for line from the
Python method.  `visited` is the path-local visited set (the Python
code copies it before each child call; here each child simply receives
`entry :: visited`).  Returns `(total_stack, path)`. -/
def CallGraph.worst_case_stack (g : CallGraph) (entry : String) (visited : List String) :
    Int × List String :=
  if h : entry ∈ visited then (0, [])
  else
    match hf : dlookup g.functions entry with
    | none => (0, [entry ++ " (unknown)"])
    | some u =>
        let callees := (dlookup g.calls entry).getD []
        let results := callees.attach.map fun c => g.worst_case_stack c.1 (entry :: visited)
        let best := results.foldl (fun acc r => if acc.1 < r.1 then r else acc)
          ((0 : Int), ([] : List String))
        (u.stack_bytes + best.1, entry :: best.2)
termination_by unvisitedCount g visited
decreasing_by
  exact unvisitedCount_lt g entry visited (dlookup_mem_keys _ _ _ hf) h

/-- Unfolding equation for the solver with the `attach` bookkeeping
removed: the recursive results are a plain `map` over the callees. -/
theorem CallGraph.worst_case_stack_eq (g : CallGraph) (entry : String)
    (visited : List String) :
    g.worst_case_stack entry visited =
      if entry ∈ visited then (0, [])
      else
        match dlookup g.functions entry with
        | none => (0, [entry ++ " (unknown)"])
        | some u =>
            let callees := (dlookup g.calls entry).getD []
            let best := (callees.map fun c => g.worst_case_stack c (entry :: visited)).foldl
              (fun acc r => if acc.1 < r.1 then r else acc) ((0 : Int), ([] : List String))
            (u.stack_bytes + best.1, entry :: best.2) := by
  rw [CallGraph.worst_case_stack]
  by_cases h : entry ∈ visited
  · simp [h]
  · simp only [dif_neg h, if_neg h]
    cases dlookup g.functions entry with
    | none => rfl
    | some u =>
        rw [List.attach_map_val ((dlookup g.calls entry).getD [])
          (fun c => g.worst_case_stack c (entry :: visited))]

/-- Python `dict.get(k, default)` on the callee map: returns the value
together with the dictionary, which `.get` never modifies — even on a
`defaultdict`, only subscripting inserts a missing key. -/
def calls_get (m : List (String × List String)) (k : String) :
    List String × List (String × List String) :=
  ((dlookup m k).getD [], m)

/-- Fuel-indexed operational translation of `worst_case_stack` that
threads the graph through the body's dictionary accesses
(`entry_point in self.functions` / `self.functions[entry_point]` are
plain-dict reads; `self.calls.get(entry_point, [])` is `calls_get`),
so that "an invocation never mutates the graph" is a provable
statement.  `none` means the fuel ran out; `worst_case_stack_op_spec`
shows sufficient fuel always exists. -/
def worst_case_stack_op : Nat → CallGraph → String → List String →
    Option (CallGraph × Int × List String)
  | 0, _, _, _ => none
  | fuel + 1, g, entry, visited =>
      if entry ∈ visited then some (g, 0, [])
      else
        match dlookup g.functions entry with
        | none => some (g, 0, [entry ++ " (unknown)"])
        | some u =>
            let gc := calls_get g.calls entry
            let st := gc.1.foldl
              (fun st c =>
                match st with
                | none => none
                | some (g1, acc) =>
                    match worst_case_stack_op fuel g1 c (entry :: visited) with
                    | none => none
                    | some (g2, s, p) =>
                        some (g2, if acc.1 < s then (s, p) else acc))
              (some (⟨g.functions, gc.2⟩, ((0 : Int), ([] : List String))))
            match st with
            | none => none
            | some (g2, best) => some (g2, u.stack_bytes + best.1, entry :: best.2)

/-- The running-maximum fold of the solver returns either its initial
accumulator or one of the list elements. -/
theorem foldl_pick_eq_or_mem (l : List (Int × List String)) (init : Int × List String) :
    l.foldl (fun acc r => if acc.1 < r.1 then r else acc) init = init ∨
      l.foldl (fun acc r => if acc.1 < r.1 then r else acc) init ∈ l := by
  induction l generalizing init with
  | nil => exact Or.inl rfl
  | cons c t ih =>
      simp only [List.foldl_cons]
      rcases ih (if init.1 < c.1 then c else init) with h | h
      · by_cases hc : init.1 < c.1
        · right
          rw [h, if_pos hc]
          exact List.mem_cons_self _ _
        · left
          rw [h, if_neg hc]
      · right
        exact List.mem_cons_of_mem _ h

/-- An entry point with no `StackUsage` record returns immediately:
contribution 0, a single annotated chain element, callees unexplored. -/
theorem worst_case_stack_unknown (g : CallGraph) (entry : String) (visited : List String)
    (hnv : entry ∉ visited) (hf : dlookup g.functions entry = none) :
    g.worst_case_stack entry visited = (0, [entry ++ " (unknown)"]) := by
  rw [CallGraph.worst_case_stack_eq, if_neg hnv, hf]

/-- For sufficient fuel the operational solver completes, returns the
graph unchanged, and computes exactly the pure solver's result. -/
theorem worst_case_stack_op_spec :
    ∀ (fuel : Nat) (g : CallGraph) (visited : List String) (entry : String),
      unvisitedCount g visited < fuel →
      worst_case_stack_op fuel g entry visited =
        some (g, g.worst_case_stack entry visited) := by
  intro fuel
  induction fuel with
  | zero => exact fun g visited entry h => absurd h (Nat.not_lt_zero _)
  | succ fuel ih =>
      intro g visited entry h
      rw [CallGraph.worst_case_stack_eq]
      simp only [worst_case_stack_op]
      by_cases hv : entry ∈ visited
      · rw [if_pos hv, if_pos hv]
      · rw [if_neg hv, if_neg hv]
        cases hf : dlookup g.functions entry with
        | none => rfl
        | some u =>
            have hlt : unvisitedCount g (entry :: visited) < fuel := by
              have h1 := unvisitedCount_lt g entry visited (dlookup_mem_keys _ _ _ hf) hv
              omega
            have heta : (⟨g.functions, g.calls⟩ : CallGraph) = g := rfl
            have hfold : ∀ (cs : List String) (acc : Int × List String),
                cs.foldl
                  (fun st c =>
                    match st with
                    | none => none
                    | some (g1, acc) =>
                        match worst_case_stack_op fuel g1 c (entry :: visited) with
                        | none => none
                        | some (g2, s, p) =>
                            some (g2, if acc.1 < s then (s, p) else acc))
                  (some (g, acc)) =
                  some (g, (cs.map fun c => g.worst_case_stack c (entry :: visited)).foldl
                    (fun a r => if a.1 < r.1 then r else a) acc) := by
              intro cs
              induction cs with
              | nil => exact fun acc => rfl
              | cons c t iht =>
                  intro acc
                  simp only [List.foldl_cons, List.map_cons]
                  rw [ih g (entry :: visited) c hlt]
                  exact iht _
            simp only [calls_get, heta]
            rw [hfold]

/-- Record for function `a` (own frame 10 bytes). -/
def usageA : StackUsage := ⟨"a", "m.c", 1, 10, "static"⟩

/-- Record for function `b` (own frame 20 bytes). -/
def usageB : StackUsage := ⟨"b", "m.c", 2, 20, "static"⟩

/-- Concrete graph: records for `a` (10) and `b` (20), edges `a → b`
and `b → a` (mutual recursion). -/
def graphAB : CallGraph :=
  ⟨[("a", usageA), ("b", usageB)], [("a", ["b"]), ("b", ["a"])]⟩

/-- Concrete graph where entry `a` has no record of its own but does
have recorded callee `b`, which has a 20-byte record. -/
def graphUnknownA : CallGraph := ⟨[("b", usageB)], [("a", ["b"])]⟩

/-- C3: on the mutual-recursion graph (`a`: 10, `b`: 20, `a → b`,
`b → a`) the solver started at `a` returns total 30 with chain
`["a", "b"]`; the recursion back into `a` is cut by the path-local
visited check with zero additional contribution. -/
theorem claim_C3 : graphAB.worst_case_stack "a" [] = (30, ["a", "b"]) := by
  have h1 := worst_case_stack_op_spec 3 graphAB [] "a" (by decide)
  have h2 : worst_case_stack_op 3 graphAB "a" [] =
      some (graphAB, ((30 : Int), ["a", "b"])) := by decide
  exact congrArg Prod.snd (Option.some.inj (h1.symm.trans h2))

/-- C5: an entry point absent from both `functions` and `calls` yields
total 0 and the single-element chain `["<entry> (unknown)"]` — a
well-formed returned value, not a raised error. -/
theorem claim_C5 (g : CallGraph) (entry : String)
    (hf : dlookup g.functions entry = none)
    (_hc : dlookup g.calls entry = none) :
    g.worst_case_stack entry [] = (0, [entry ++ " (unknown)"]) :=
  worst_case_stack_unknown g entry [] (by simp) hf

theorem claim_C5_witness :
    dlookup CallGraph.empty.functions "missing_fn" = none ∧
    dlookup CallGraph.empty.calls "missing_fn" = none ∧
    CallGraph.empty.worst_case_stack "missing_fn" [] =
      (0, ["missing_fn" ++ " (unknown)"]) :=
  ⟨by decide, by decide, claim_C5 CallGraph.empty "missing_fn" (by decide) (by decide)⟩

/-- C1 is refuted on `graphUnknownA`: entry `a` has callees recorded in
`calls` (namely `b`, whose own record contributes 20), yet the solver
returns total 0 and chain `["a (unknown)"]` — it terminates the walk at
the unknown entry instead of continuing into the callee subtree. -/
theorem claim_C1_counterexample :
    graphUnknownA.worst_case_stack "a" [] = (0, ["a" ++ " (unknown)"]) ∧
    "b" ∉ (graphUnknownA.worst_case_stack "a" []).2 ∧
    (graphUnknownA.worst_case_stack "a" []).1 ≠ 20 := by
  have h := worst_case_stack_unknown graphUnknownA "a" [] (by simp) (by decide)
  refine ⟨h, ?_, ?_⟩ <;> rw [h] <;> decide

/-- C1 (amended): an entry point with no `StackUsage` record — even one
with recorded callees — makes the solver return contribution 0 and the
single annotated chain element `"<entry> (unknown)"` as an ordinary
value, without descending into the entry's callees; the enclosing walk
continues because this is a normal return, never an exception. -/
theorem claim_C1_amended (g : CallGraph) (entry : String) (visited : List String)
    (hnv : entry ∉ visited) (hf : dlookup g.functions entry = none) :
    g.worst_case_stack entry visited = (0, [entry ++ " (unknown)"]) :=
  worst_case_stack_unknown g entry visited hnv hf

theorem claim_C1_amended_witness :
    ("a" : String) ∉ ([] : List String) ∧
    dlookup graphUnknownA.functions "a" = none ∧
    graphUnknownA.worst_case_stack "a" [] = (0, ["a" ++ " (unknown)"]) :=
  ⟨by decide, by decide, claim_C1_amended graphUnknownA "a" [] (by decide) (by decide)⟩

/-- C9: invoking the solver leaves the graph unchanged.  The
state-threading operational solver, run with sufficient fuel on a
top-level invocation, returns exactly the graph it was given (its
`functions` and `calls` both identical, no new callee sets created)
together with the pure solver's result. -/
theorem claim_C9 (g : CallGraph) (entry : String) (fuel : Nat)
    (hfuel : unvisitedCount g [] < fuel) :
    worst_case_stack_op fuel g entry [] = some (g, g.worst_case_stack entry []) :=
  worst_case_stack_op_spec fuel g [] entry hfuel

theorem claim_C9_witness :
    unvisitedCount graphAB [] < 3 ∧
    worst_case_stack_op 3 graphAB "a" [] =
      some (graphAB, graphAB.worst_case_stack "a" []) :=
  ⟨by decide, claim_C9 graphAB "a" 3 (by decide)⟩

/-- Weight the additivity property assigns to a chain element: the
function's own `stack_bytes` when it has a record in `functions`, and
0 otherwise — in particular 0 for annotated `"<name> (unknown)"`
placeholders, which are never recorded names as long as no recorded
name ends in `" (unknown)"`. -/
def chain_weight (g : CallGraph) (s : String) : Int :=
  match dlookup g.functions s with
  | some u => u.stack_bytes
  | none => 0

/-- When no recorded function name ends in `" (unknown)"`, an annotated
placeholder is never a recorded name. -/
theorem dlookup_unknown_none (m : List (String × StackUsage)) (entry : String)
    (hm : ∀ p ∈ m, ¬ (" (unknown)".data <:+ p.1.data)) :
    dlookup m (entry ++ " (unknown)") = none := by
  induction m with
  | nil => rfl
  | cons p m ih =>
      obtain ⟨k, v⟩ := p
      simp only [dlookup]
      by_cases hk : k = entry ++ " (unknown)"
      · exfalso
        refine hm (k, v) (List.mem_cons_self _ _) ?_
        rw [hk]
        show " (unknown)".data <:+ (entry ++ " (unknown)").data
        have hd : (entry ++ " (unknown)").data = entry.data ++ " (unknown)".data := rfl
        rw [hd]
        exact List.suffix_append _ _
      · rw [if_neg hk]
        exact ih fun p hp => hm p (List.mem_cons_of_mem _ hp)

/-- Additivity invariant of the solver, by strong induction on the
number of unvisited recorded functions: the returned total equals the
sum of the chain weights. -/
theorem worst_case_stack_sum (g : CallGraph)
    (hg : ∀ p ∈ g.functions, ¬ (" (unknown)".data <:+ p.1.data)) :
    ∀ (n : Nat) (visited : List String) (entry : String),
      unvisitedCount g visited ≤ n →
      (g.worst_case_stack entry visited).1 =
        ((g.worst_case_stack entry visited).2.map (chain_weight g)).sum := by
  intro n
  induction n using Nat.strong_induction_on with
  | _ n ih =>
      intro visited entry hn
      rw [CallGraph.worst_case_stack_eq]
      by_cases hv : entry ∈ visited
      · rw [if_pos hv]
        rfl
      · rw [if_neg hv]
        cases hf : dlookup g.functions entry with
        | none =>
            show (0 : Int) = ([entry ++ " (unknown)"].map (chain_weight g)).sum
            simp [chain_weight, dlookup_unknown_none g.functions entry hg]
        | some u =>
            simp only [List.map_cons, List.sum_cons]
            have hw : chain_weight g entry = u.stack_bytes := by
              simp [chain_weight, hf]
            rw [hw]
            have hmain :
                ((((dlookup g.calls entry).getD []).map fun c =>
                    g.worst_case_stack c (entry :: visited)).foldl
                  (fun acc r => if acc.1 < r.1 then r else acc)
                  ((0 : Int), ([] : List String))).1 =
                (((((dlookup g.calls entry).getD []).map fun c =>
                    g.worst_case_stack c (entry :: visited)).foldl
                  (fun acc r => if acc.1 < r.1 then r else acc)
                  ((0 : Int), ([] : List String))).2.map (chain_weight g)).sum := by
              rcases foldl_pick_eq_or_mem
                  (((dlookup g.calls entry).getD []).map fun c =>
                    g.worst_case_stack c (entry :: visited))
                  ((0 : Int), ([] : List String)) with hF | hF
              · rw [hF]
                rfl
              · obtain ⟨c, _hc, hFc⟩ := List.mem_map.mp hF
                rw [← hFc]
                have hstep := unvisitedCount_lt g entry visited
                  (dlookup_mem_keys _ _ _ hf) hv
                exact ih (unvisitedCount g (entry :: visited)) (by omega)
                  (entry :: visited) c (le_refl _)
            omega

/-- C2: additivity — for every graph whose recorded names do not
themselves end in the annotation `" (unknown)"` (so placeholders are
unambiguous), the total returned by the solver equals the sum over the
chain of each element's `stack_bytes` (0 for annotated unknowns). -/
theorem claim_C2 (g : CallGraph) (entry : String)
    (hg : ∀ p ∈ g.functions, ¬ (" (unknown)".data <:+ p.1.data)) :
    (g.worst_case_stack entry []).1 =
      ((g.worst_case_stack entry []).2.map (chain_weight g)).sum :=
  worst_case_stack_sum g hg (unvisitedCount g []) [] entry (le_refl _)

theorem claim_C2_witness :
    (∀ p ∈ graphAB.functions, ¬ (" (unknown)".data <:+ p.1.data)) ∧
    (graphAB.worst_case_stack "a" []).1 =
      ((graphAB.worst_case_stack "a" []).2.map (chain_weight graphAB)).sum :=
  ⟨by decide, claim_C2 graphAB "a" (by decide)⟩

/-- Callee set of a function: `self.calls.get(x, [])`. -/
def CallGraph.callees (g : CallGraph) (x : String) : List String :=
  (dlookup g.calls x).getD []

/-- Reachability along `calls` edges, starting from (and including)
the entry point. -/
inductive Reach (g : CallGraph) (entry : String) : String → Prop
  | refl : Reach g entry entry
  | tail {y z : String} : Reach g entry y → z ∈ g.callees y → Reach g entry z

/-- Prepending one `calls` edge to a reachability path. -/
theorem Reach.head {g : CallGraph} {entry c x : String}
    (hc : c ∈ g.callees entry) (hr : Reach g c x) : Reach g entry x := by
  induction hr with
  | refl => exact Reach.tail Reach.refl hc
  | tail _ hz ih => exact Reach.tail ih hz

/-- A successful `dlookup` returns a stored pair. -/
theorem dlookup_mem {β : Type} (m : List (String × β)) (k : String) (v : β)
    (h : dlookup m k = some v) : (k, v) ∈ m := by
  induction m with
  | nil => simp [dlookup] at h
  | cons p m ih =>
      obtain ⟨k0, v0⟩ := p
      simp only [dlookup] at h
      by_cases hk : k0 = k
      · subst hk
        rw [if_pos rfl] at h
        rw [← Option.some.inj h]
        exact List.mem_cons_self _ _
      · rw [if_neg hk] at h
        exact List.mem_cons_of_mem _ (ih h)

/-- Anything reachable from `entry` is `entry` itself or listed in some
callee set of the graph, so the reachable set is finite. -/
theorem Reach.mem_of (g : CallGraph) (entry x : String) (h : Reach g entry x) :
    x = entry ∨ x ∈ (g.calls.map Prod.snd).flatten := by
  induction h with
  | refl => exact Or.inl rfl
  | tail _ hz _ =>
      right
      rename_i y z hr ih
      unfold CallGraph.callees at hz
      cases hl : dlookup g.calls y with
      | none => rw [hl] at hz; cases hz
      | some l =>
          rw [hl] at hz
          exact List.mem_flatten.mpr ⟨l, List.mem_map.mpr
            ⟨(y, l), dlookup_mem _ _ _ hl, rfl⟩, hz⟩

/-- Structure of the returned chain: its elements are the annotations
of a duplicate-free list of reachable, unvisited function names, so
its length is that of such a list. -/
theorem worst_case_stack_chain (g : CallGraph) :
    ∀ (n : Nat) (visited : List String) (entry : String),
      unvisitedCount g visited ≤ n →
      ∃ ns : List String, ns.Nodup ∧
        (∀ x ∈ ns, Reach g entry x ∧ x ∉ visited) ∧
        (g.worst_case_stack entry visited).2.length = ns.length := by
  intro n
  induction n using Nat.strong_induction_on with
  | _ n ih =>
      intro visited entry hn
      rw [CallGraph.worst_case_stack_eq]
      by_cases hv : entry ∈ visited
      · rw [if_pos hv]
        exact ⟨[], List.nodup_nil, by simp, rfl⟩
      · rw [if_neg hv]
        cases hf : dlookup g.functions entry with
        | none =>
            refine ⟨[entry], List.nodup_singleton _, ?_, rfl⟩
            intro x hx
            rw [List.mem_singleton.mp hx]
            exact ⟨Reach.refl, hv⟩
        | some u =>
            rcases foldl_pick_eq_or_mem
                (((dlookup g.calls entry).getD []).map fun c =>
                  g.worst_case_stack c (entry :: visited))
                ((0 : Int), ([] : List String)) with hF | hF
            · refine ⟨[entry], List.nodup_singleton _, ?_, ?_⟩
              · intro x hx
                rw [List.mem_singleton.mp hx]
                exact ⟨Reach.refl, hv⟩
              · show (entry :: _).length = 1
                rw [hF]
                rfl
            · obtain ⟨c, hc, hFc⟩ := List.mem_map.mp hF
              have hstep := unvisitedCount_lt g entry visited
                (dlookup_mem_keys _ _ _ hf) hv
              obtain ⟨ns, hnd, hmem, hlen⟩ :=
                ih (unvisitedCount g (entry :: visited)) (by omega)
                  (entry :: visited) c (le_refl _)
              refine ⟨entry :: ns, ?_, ?_, ?_⟩
              · refine List.nodup_cons.mpr ⟨?_, hnd⟩
                intro hmem'
                exact (hmem entry hmem').2 (List.mem_cons_self _ _)
              · intro x hx
                rcases List.mem_cons.mp hx with rfl | hx'
                · exact ⟨Reach.refl, hv⟩
                · obtain ⟨hr, hnv'⟩ := hmem x hx'
                  refine ⟨Reach.head hc hr, ?_⟩
                  exact fun hxv => hnv' (List.mem_cons_of_mem _ hxv)
              · show (entry :: _).length = (entry :: ns).length
                rw [← hFc]
                simp [hlen]

/-- C4: the solver is a total function (termination is witnessed by its
well-founded definition over the strictly growing visited set), and on
every entry point the returned chain is no longer than the number of
distinct function names reachable from the entry along `calls` edges,
the entry itself included. -/
theorem claim_C4 (g : CallGraph) (entry : String) :
    (g.worst_case_stack entry []).2.length ≤ Set.ncard {x | Reach g entry x} := by
  obtain ⟨ns, hnd, hmem, hlen⟩ :=
    worst_case_stack_chain g (unvisitedCount g []) [] entry (le_refl _)
  rw [hlen]
  have hsub : ↑ns.toFinset ⊆ {x | Reach g entry x} := by
    intro x hx
    simp only [List.coe_toFinset, Set.mem_setOf_eq] at hx ⊢
    exact (hmem x hx).1
  have hfin : ({x | Reach g entry x}).Finite := by
    apply Set.Finite.subset (List.finite_toSet (entry :: (g.calls.map Prod.snd).flatten))
    intro x hx
    simp only [Set.mem_setOf_eq] at hx
    rcases Reach.mem_of g entry x hx with h | h
    · simp [h]
    · exact List.mem_cons_of_mem _ h
  calc ns.length = ns.toFinset.card := (List.toFinset_card_of_nodup hnd).symm
    _ = Set.ncard ↑ns.toFinset := (Set.ncard_coe_Finset _).symm
    _ ≤ Set.ncard {x | Reach g entry x} := Set.ncard_le_ncard hsub hfin

/-- Python dict assignment semantics of `dinsert`: the inserted key now
maps to the new value, every other key is untouched. -/
theorem dlookup_dinsert {β : Type} (m : List (String × β)) (k : String) (v : β)
    (k' : String) :
    dlookup (dinsert m k v) k' = if k = k' then some v else dlookup m k' := by
  induction m with
  | nil => rfl
  | cons p m ih =>
      obtain ⟨k0, v0⟩ := p
      simp only [dinsert]
      by_cases h0 : k0 = k
      · subst h0
        simp only [if_pos rfl, dlookup]
        by_cases h0' : k0 = k'
        · rw [if_pos h0', if_pos h0']
        · rw [if_neg h0', if_neg h0', if_neg h0']
      · rw [if_neg h0]
        simp only [dlookup, ih]
        by_cases h0' : k0 = k'
        · subst h0'
          rw [if_pos rfl, if_neg (fun hk => h0 hk.symm), if_pos rfl]
        · rw [if_neg h0', if_neg h0']

/-- Keys of a dict after `dinsert`: the old keys, plus possibly `k`. -/
theorem mem_keys_dinsert {β : Type} (m : List (String × β)) (k : String) (v : β)
    (x : String) (hx : x ∈ (dinsert m k v).map Prod.fst) :
    x ∈ m.map Prod.fst ∨ x = k := by
  induction m with
  | nil =>
      simp only [dinsert, List.map_cons, List.map_nil, List.mem_singleton] at hx
      exact Or.inr hx
  | cons p m ih =>
      obtain ⟨k0, v0⟩ := p
      simp only [dinsert] at hx
      by_cases h0 : k0 = k
      · rw [if_pos h0] at hx
        simp only [List.map_cons, List.mem_cons] at hx
        rcases hx with rfl | hx
        · exact Or.inr rfl
        · exact Or.inl (by simp [hx])
      · rw [if_neg h0] at hx
        simp only [List.map_cons, List.mem_cons] at hx
        rcases hx with rfl | hx
        · exact Or.inl (by simp)
        · rcases ih hx with h | h
          · exact Or.inl (by simp [h])
          · exact Or.inr h

/-- `dinsert` preserves uniqueness of keys. -/
theorem nodup_keys_dinsert {β : Type} (m : List (String × β)) (k : String) (v : β)
    (h : (m.map Prod.fst).Nodup) : ((dinsert m k v).map Prod.fst).Nodup := by
  induction m with
  | nil => simp [dinsert]
  | cons p m ih =>
      obtain ⟨k0, v0⟩ := p
      simp only [List.map_cons, List.nodup_cons] at h
      obtain ⟨hk0, hm⟩ := h
      simp only [dinsert]
      by_cases h0 : k0 = k
      · subst h0
        rw [if_pos rfl]
        simp only [List.map_cons, List.nodup_cons]
        exact ⟨hk0, hm⟩
      · rw [if_neg h0]
        simp only [List.map_cons, List.nodup_cons]
        refine ⟨?_, ih hm⟩
        intro hmem
        rcases mem_keys_dinsert m k v k0 hmem with hh | hh
        · exact hk0 hh
        · exact h0 hh

/-- After folding `add_function` over a record list, the keys of
`functions` are duplicate-free. -/
theorem add_function_foldl_nodup (recs : List StackUsage) (g : CallGraph)
    (h : (g.functions.map Prod.fst).Nodup) :
    (((recs.foldl CallGraph.add_function g).functions).map Prod.fst).Nodup := by
  induction recs generalizing g with
  | nil => exact h
  | cons r t ih =>
      exact ih _ (nodup_keys_dinsert _ _ _ h)

/-- After folding `add_function` over a record list, a name that occurs
in the list maps to its **last** record in addition order. -/
theorem add_function_foldl_lookup :
    ∀ (recs : List StackUsage) (g : CallGraph) (name : String),
      name ∈ recs.map StackUsage.function →
      dlookup ((recs.foldl CallGraph.add_function g).functions) name =
        recs.reverse.find? (fun r => r.function == name) := by
  intro recs
  induction recs using List.reverseRecOn with
  | nil => intro g name h; cases h
  | append_singleton t r ih =>
      intro g name h
      rw [List.foldl_append, List.reverse_append]
      simp only [List.foldl_cons, List.foldl_nil, List.reverse_singleton,
        List.singleton_append, List.find?_cons]
      show dlookup (dinsert _ r.function r) name = _
      rw [dlookup_dinsert]
      by_cases hr : r.function = name
      · rw [if_pos hr]
        have : (r.function == name) = true := by simp [hr]
        rw [this]
      · rw [if_neg hr]
        have hbeq : (r.function == name) = false := by simp [hr]
        rw [hbeq]
        apply ih
        simp only [List.map_append, List.mem_append] at h
        rcases h with h | h
        · exact h
        · exfalso
          simp only [List.map_cons, List.map_nil, List.mem_singleton] at h
          exact hr h.symm

/-- C8: folding any record sequence into a fresh graph keeps at most
one record per function name (the keys of `functions` are
duplicate-free), and each occurring name maps to the **last** record
with that name in addition order — last-wins resolution. -/
theorem claim_C8 (recs : List StackUsage) (name : String)
    (h : name ∈ recs.map StackUsage.function) :
    (((recs.foldl CallGraph.add_function CallGraph.empty).functions).map Prod.fst).Nodup ∧
    dlookup ((recs.foldl CallGraph.add_function CallGraph.empty).functions) name =
      recs.reverse.find? (fun r => r.function == name) :=
  ⟨add_function_foldl_nodup recs CallGraph.empty List.nodup_nil,
   add_function_foldl_lookup recs CallGraph.empty name h⟩

theorem claim_C8_witness :
    ("f" : String) ∈ ([⟨"f", "x.c", 1, 8, "static"⟩,
        ⟨"g", "x.c", 5, 4, "static"⟩,
        ⟨"f", "y.c", 2, 16, "dynamic"⟩] : List StackUsage).map StackUsage.function ∧
    ((([⟨"f", "x.c", 1, 8, "static"⟩, ⟨"g", "x.c", 5, 4, "static"⟩,
        ⟨"f", "y.c", 2, 16, "dynamic"⟩] : List StackUsage).foldl
      CallGraph.add_function CallGraph.empty).functions.map Prod.fst).Nodup ∧
    dlookup ((([⟨"f", "x.c", 1, 8, "static"⟩, ⟨"g", "x.c", 5, 4, "static"⟩,
        ⟨"f", "y.c", 2, 16, "dynamic"⟩] : List StackUsage).foldl
      CallGraph.add_function CallGraph.empty).functions) "f" =
      ([⟨"f", "x.c", 1, 8, "static"⟩, ⟨"g", "x.c", 5, 4, "static"⟩,
        ⟨"f", "y.c", 2, 16, "dynamic"⟩] : List StackUsage).reverse.find?
        (fun r => r.function == "f") :=
  ⟨by decide,
   (claim_C8 _ "f" (by decide)).1,
   (claim_C8 _ "f" (by decide)).2⟩

/-- The fixed exclusion set of `build_call_graph_from_source`: call-like
tokens that are never recorded as callees (control-flow keywords,
`sizeof`, and the common macro `printf`), exactly the list literal of
the Python source. -/
def excluded_callees : List String :=
  ["if", "while", "for", "switch", "return", "sizeof", "printf"]

/-- Edge-recording loop of `build_call_graph_from_source`, starting
from the fresh graph the function constructs.  The regex extraction of
candidate `(caller, callee)` token pairs from the C sources is
abstracted as the input list; each pair is recorded by `add_call`
unless the callee is in the fixed exclusion set, exactly as in the
Python loop body. -/
def build_call_graph (pairs : List (String × String)) : CallGraph :=
  pairs.foldl
    (fun g p => if p.2 ∈ excluded_callees then g else g.add_call p.1 p.2)
    CallGraph.empty

/-- Membership in a callee set after `sadd`. -/
theorem mem_sadd (s : List String) (x y : String) (h : y ∈ sadd s x) :
    y ∈ s ∨ y = x := by
  unfold sadd at h
  by_cases hx : x ∈ s
  · rw [if_pos hx] at h
    exact Or.inl h
  · rw [if_neg hx] at h
    rcases List.mem_append.mp h with h | h
    · exact Or.inl h
    · exact Or.inr (List.mem_singleton.mp h)


/-- `daddTo` with a callee other than `x` never introduces `x` into any
stored callee set (shadowed entries included). -/
theorem not_mem_daddTo (m : List (String × List String))
    (caller callee x : String) (hne : callee ≠ x)
    (h : ∀ p ∈ m, x ∉ p.2) :
    ∀ p ∈ daddTo m caller callee, x ∉ p.2 := by
  induction m with
  | nil =>
      intro p hp
      simp only [daddTo, List.mem_singleton] at hp
      subst hp
      simp only [List.mem_singleton]
      exact fun hx => hne hx.symm
  | cons q m ih =>
      obtain ⟨k0, v0⟩ := q
      intro p hp
      simp only [daddTo] at hp
      by_cases h0 : k0 = caller
      · rw [if_pos h0] at hp
        rcases List.mem_cons.mp hp with rfl | hp'
        · intro hx
          rcases mem_sadd v0 callee x hx with hx | hx
          · exact h (k0, v0) (List.mem_cons_self _ _) hx
          · exact hne hx.symm
        · exact h p (List.mem_cons_of_mem _ hp')
      · rw [if_neg h0] at hp
        rcases List.mem_cons.mp hp with rfl | hp'
        · exact h (k0, v0) (List.mem_cons_self _ _)
        · exact ih (fun q hq => h q (List.mem_cons_of_mem _ hq)) p hp'

/-- A `dlookup` value is a stored value. -/
theorem mem_getD_dlookup {β : Type} (m : List (String × List β)) (k : String)
    (x : β) (hx : x ∈ (dlookup m k).getD []) : ∃ p ∈ m, x ∈ p.2 := by
  cases hl : dlookup m k with
  | none => rw [hl] at hx; cases hx
  | some l =>
      rw [hl] at hx
      exact ⟨(k, l), dlookup_mem _ _ _ hl, hx⟩

/-- C10: the exclusion set contains `printf` (alongside the control-flow
keywords `if`, `while`, `for`, `switch`, `return` and `sizeof`), and
consequently the call-graph builder never records an edge whose callee
is `printf`, whatever token pairs the source scan produces. -/
theorem claim_C10 :
    "printf" ∈ excluded_callees ∧
    ∀ (pairs : List (String × String)) (caller : String),
      "printf" ∉ (dlookup (build_call_graph pairs).calls caller).getD [] := by
  refine ⟨by decide, ?_⟩
  have hinv : ∀ (pairs : List (String × String)) (g : CallGraph),
      (∀ p ∈ g.calls, "printf" ∉ p.2) →
      ∀ q ∈ (pairs.foldl
        (fun g p => if p.2 ∈ excluded_callees then g else g.add_call p.1 p.2) g).calls,
        "printf" ∉ q.2 := by
    intro pairs
    induction pairs with
    | nil => exact fun g hg => hg
    | cons pr t ih =>
        intro g hg
        simp only [List.foldl_cons]
        by_cases hex : pr.2 ∈ excluded_callees
        · rw [if_pos hex]
          exact ih g hg
        · rw [if_neg hex]
          refine ih _ ?_
          refine not_mem_daddTo g.calls pr.1 pr.2 "printf" ?_ hg
          intro hpr
          exact hex (hpr ▸ by decide)
  intro pairs caller hx
  obtain ⟨p, hp, hxp⟩ := mem_getD_dlookup _ _ _ hx
  exact hinv pairs CallGraph.empty (by simp [CallGraph.empty]) p hp hxp

/-- ASCII whitespace stripped by Python `str.strip()` (the model is
restricted to the ASCII whitespace actually occurring in `.su` files). -/
def isWS (c : Char) : Bool :=
  decide (c = ' ' ∨ c = '\t' ∨ c = '\n' ∨ c = '\r' ∨ c = '\x0b' ∨ c = '\x0c')

/-- Python `str.strip()` on a string modeled as its character list. -/
def pyStrip (cs : List Char) : List Char :=
  ((cs.dropWhile isWS).reverse.dropWhile isWS).reverse

/-- Python `line.split('\t')`: split on every tab, keeping empty
fields (`"".split('\t') == [""]`). -/
def splitTab : List Char → List (List Char)
  | [] => [[]]
  | c :: rest =>
      if c = '\t' then [] :: splitTab rest
      else
        match splitTab rest with
        | [] => [[c]]
        | p :: ps => (c :: p) :: ps

/-- ASCII decimal digit, the `\d` of the location regex and the digits
accepted by `int()` (the model is restricted to ASCII digits, the only
digits GCC emits). -/
def isDigitC (c : Char) : Bool :=
  decide (c ∈ ['0', '1', '2', '3', '4', '5', '6', '7', '8', '9'])

/-- Numeric value of a decimal digit string, as computed by `int()` on
a digits-only string. -/
def digitsVal (ds : List Char) : Nat :=
  ds.foldl (fun a c => 10 * a + (c.toNat - '0'.toNat)) 0

/-- Tail of the location regex: `(\d+):\d+:(.+)` matched at the start
of the input.  The greedy `\d+` groups need no backtracking because
each must be followed by a literal `':'`, which is not a digit.
Returns the line-number digits and the function-name group. -/
def matchNums (cs : List Char) : Option (List Char × List Char) :=
  let d1 := cs.takeWhile isDigitC
  let r1 := cs.dropWhile isDigitC
  if d1 = [] then none
  else
    match r1 with
    | ':' :: r2 =>
        let d2 := r2.takeWhile isDigitC
        let r3 := r2.dropWhile isDigitC
        if d2 = [] then none
        else
          match r3 with
          | ':' :: fn => if fn = [] then none else some (d1, fn)
          | _ => none
    | _ => none

/-- The location regex `re.match(r'(.+?):(\d+):\d+:(.+)', location)`.
The lazy group `(.+?)` takes the shortest non-empty prefix whose
following `':'` lets the tail `(\d+):\d+:(.+)` match, so the scan
tries each `':'` (with at least one character before it) left to
right; `acc` holds the reversed candidate file prefix.  Returns
`(file, line digits, function)`; the column group is dropped, as in
the source. -/
def matchLoc (acc : List Char) : List Char → Option (List Char × List Char × List Char)
  | [] => none
  | c :: rest =>
      if c = ':' ∧ acc ≠ [] then
        match matchNums rest with
        | some (ds, fn) => some (acc.reverse, ds, fn)
        | none => matchLoc (c :: acc) rest
      else matchLoc (c :: acc) rest

/-- Python `int(s)` as used on the byte field: strip whitespace, an
optional single sign, then one or more decimal digits; anything else
raises `ValueError`, modeled as `none`.  (Underscore grouping and
non-ASCII digits, which CPython would also accept but which never
occur in `.su` files, are outside the model.) -/
def pyInt (cs : List Char) : Option Int :=
  match pyStrip cs with
  | [] => none
  | c :: ds =>
      if c = '+' then
        if ds ≠ [] ∧ ds.all isDigitC then some (digitsVal ds : Int) else none
      else if c = '-' then
        if ds ≠ [] ∧ ds.all isDigitC then some (-(digitsVal ds : Int)) else none
      else if (c :: ds).all isDigitC then some (digitsVal (c :: ds) : Int)
      else none

/-- Loop body of `parse_su_file` for one input line (a Python `str`
modeled as its character list): strip, skip blank lines, split on
tabs, require at least 3 fields, match the location regex, parse the
byte field with `int()`, and build the record; every failure skips the
line (`continue`), producing no record. -/
def parse_su_line (line : List Char) : Option StackUsage :=
  let l := pyStrip line
  if l = [] then none
  else
    match splitTab l with
    | location :: bytes_str :: qualifier :: _ =>
        match matchLoc [] location with
        | none => none
        | some (file_name, line_digits, func_name) =>
            match pyInt bytes_str with
            | none => none
            | some stack_bytes =>
                some ⟨String.mk func_name, String.mk file_name,
                  digitsVal line_digits, stack_bytes, String.mk qualifier⟩
    | _ => none

/-- `parse_su_file`: the records of all lines of the file, in order
(file I/O abstracted as the list of lines). -/
def parse_su_file (lines : List (List Char)) : List StackUsage :=
  lines.filterMap parse_su_line

/-- `takeWhile` over a satisfying block stops exactly at the first
failing element. -/
theorem takeWhile_app {α : Type} (p : α → Bool) (xs : List α) (y : α) (ys : List α)
    (hxs : ∀ x ∈ xs, p x = true) (hy : p y = false) :
    (xs ++ y :: ys).takeWhile p = xs := by
  induction xs with
  | nil =>
      simp only [List.nil_append]
      exact List.takeWhile_cons_of_neg (by simp [hy])
  | cons a t ih =>
      rw [List.cons_append,
        List.takeWhile_cons_of_pos (hxs a (List.mem_cons_self _ _)),
        ih (fun x hx => hxs x (List.mem_cons_of_mem _ hx))]

/-- `dropWhile` over a satisfying block stops exactly at the first
failing element. -/
theorem dropWhile_app {α : Type} (p : α → Bool) (xs : List α) (y : α) (ys : List α)
    (hxs : ∀ x ∈ xs, p x = true) (hy : p y = false) :
    (xs ++ y :: ys).dropWhile p = y :: ys := by
  induction xs with
  | nil =>
      simp only [List.nil_append]
      exact List.dropWhile_cons_of_neg (by simp [hy])
  | cons a t ih =>
      rw [List.cons_append,
        List.dropWhile_cons_of_pos (hxs a (List.mem_cons_self _ _)),
        ih (fun x hx => hxs x (List.mem_cons_of_mem _ hx))]

/-- `dropWhile` is the identity when the first element (if any) fails
the predicate. -/
theorem dropWhile_eq_self {α : Type} (p : α → Bool) (l : List α)
    (h : ∀ c ∈ l.take 1, p c = false) : l.dropWhile p = l := by
  cases l with
  | nil => rfl
  | cons a t =>
      exact List.dropWhile_cons_of_neg (by simp [h a (by simp)])

/-- `strip()` is the identity on a string that neither starts nor ends
with whitespace. -/
theorem pyStrip_eq_self (cs : List Char)
    (h1 : ∀ c ∈ cs.take 1, isWS c = false)
    (h2 : ∀ c ∈ cs.reverse.take 1, isWS c = false) :
    pyStrip cs = cs := by
  unfold pyStrip
  rw [dropWhile_eq_self isWS cs h1, dropWhile_eq_self isWS cs.reverse h2,
    List.reverse_reverse]

/-- `split('\t')` always yields at least one field. -/
theorem splitTab_ne_nil (cs : List Char) : splitTab cs ≠ [] := by
  induction cs with
  | nil => simp [splitTab]
  | cons c rest ih =>
      simp only [splitTab]
      by_cases hc : c = '\t'
      · rw [if_pos hc]
        simp
      · rw [if_neg hc]
        cases h : splitTab rest with
        | nil => simp
        | cons p ps => simp

/-- A tab-free string is a single field. -/
theorem splitTab_no_tab (xs : List Char) (h : ∀ c ∈ xs, c ≠ '\t') :
    splitTab xs = [xs] := by
  induction xs with
  | nil => rfl
  | cons c rest ih =>
      simp only [splitTab]
      rw [if_neg (h c (List.mem_cons_self _ _)),
        ih (fun c hc => h c (List.mem_cons_of_mem _ hc))]

/-- Splitting after a tab-free first field. -/
theorem splitTab_app (xs ys : List Char) (h : ∀ c ∈ xs, c ≠ '\t') :
    splitTab (xs ++ '\t' :: ys) = xs :: splitTab ys := by
  induction xs with
  | nil =>
      simp [splitTab]
  | cons c rest ih =>
      rw [List.cons_append]
      simp only [splitTab]
      rw [if_neg (h c (List.mem_cons_self _ _)),
        ih (fun c hc => h c (List.mem_cons_of_mem _ hc))]

/-- A decimal digit is not a tab, a colon or a sign, and is not
whitespace. -/
theorem isDigitC_props (c : Char) (h : isDigitC c = true) :
    c ≠ '\t' ∧ c ≠ ':' ∧ c ≠ '+' ∧ c ≠ '-' ∧ isWS c = false := by
  have hc := of_decide_eq_true h
  fin_cases hc <;> exact ⟨by decide, by decide, by decide, by decide, by decide⟩

/-- Number of fields `split('\t')` produces: one more than the number
of tabs. -/
theorem splitTab_length (cs : List Char) :
    (splitTab cs).length = cs.count '\t' + 1 := by
  induction cs with
  | nil => rfl
  | cons c rest ih =>
      simp only [splitTab]
      by_cases hc : c = '\t'
      · subst hc
        rw [if_pos rfl]
        simp [ih, List.count_cons]
      · rw [if_neg hc]
        cases h : splitTab rest with
        | nil => exact absurd h (splitTab_ne_nil rest)
        | cons p ps =>
            rw [h] at ih
            simp only [List.length_cons] at ih ⊢
            rw [List.count_cons]
            simp only [beq_iff_eq, hc, if_false]
            omega

/-- `strip()` cannot increase the number of tabs. -/
theorem count_pyStrip_le (cs : List Char) (a : Char) :
    (pyStrip cs).count a ≤ cs.count a := by
  unfold pyStrip
  calc (((cs.dropWhile isWS).reverse.dropWhile isWS).reverse).count a
      = ((cs.dropWhile isWS).reverse.dropWhile isWS).count a := List.count_reverse _ _
    _ ≤ ((cs.dropWhile isWS).reverse).count a :=
        (List.dropWhile_sublist _).count_le _
    _ = (cs.dropWhile isWS).count a := List.count_reverse _ _
    _ ≤ cs.count a := (List.dropWhile_sublist _).count_le _

/-- The regex tail `(\d+):\d+:(.+)` on input of exactly that shape
recovers the line digits and the function group. -/
theorem matchNums_app (lineDs colDs fn : List Char)
    (hl : lineDs ≠ []) (hld : ∀ c ∈ lineDs, isDigitC c = true)
    (hc : colDs ≠ []) (hcd : ∀ c ∈ colDs, isDigitC c = true)
    (hfn : fn ≠ []) :
    matchNums (lineDs ++ ':' :: (colDs ++ ':' :: fn)) = some (lineDs, fn) := by
  unfold matchNums
  rw [takeWhile_app isDigitC lineDs ':' _ hld (by decide),
    dropWhile_app isDigitC lineDs ':' _ hld (by decide)]
  rw [if_neg hl]
  simp only
  rw [takeWhile_app isDigitC colDs ':' fn hcd (by decide),
    dropWhile_app isDigitC colDs ':' fn hcd (by decide)]
  rw [if_neg hc]
  simp only
  rw [if_neg hfn]

/-- The full location regex `(.+?):(\d+):\d+:(.+)` on a well-shaped
location with a colon-free file prefix: the lazy file group stops at
the first colon, i.e. exactly at the file/line boundary. -/
theorem matchLoc_app (file : List Char) :
    ∀ (acc lineDs colDs fn : List Char),
      (∀ c ∈ file, c ≠ ':') →
      (acc ≠ [] ∨ file ≠ []) →
      lineDs ≠ [] → (∀ c ∈ lineDs, isDigitC c = true) →
      colDs ≠ [] → (∀ c ∈ colDs, isDigitC c = true) →
      fn ≠ [] →
      matchLoc acc (file ++ ':' :: (lineDs ++ ':' :: (colDs ++ ':' :: fn))) =
        some (acc.reverse ++ file, lineDs, fn) := by
  induction file with
  | nil =>
      intro acc lineDs colDs fn _ hne hl hld hc hcd hfn
      have hacc : acc ≠ [] := by
        rcases hne with h | h
        · exact h
        · exact absurd rfl h
      simp only [List.nil_append, matchLoc]
      rw [if_pos ⟨trivial, hacc⟩]
      have hmn := matchNums_app lineDs colDs fn hl hld hc hcd hfn
      rw [hmn]
      simp
  | cons fc ft ih =>
      intro acc lineDs colDs fn hfile hne hl hld hc hcd hfn
      rw [List.cons_append]
      simp only [matchLoc]
      rw [if_neg (fun hand => hfile fc (List.mem_cons_self _ _) hand.1)]
      rw [ih (fc :: acc) lineDs colDs fn
        (fun c hcm => hfile c (List.mem_cons_of_mem _ hcm))
        (Or.inl (by simp)) hl hld hc hcd hfn]
      simp

/-- `int()` on a pure digit string returns its decimal value. -/
theorem pyInt_digits (ds : List Char) (hne : ds ≠ [])
    (hd : ∀ c ∈ ds, isDigitC c = true) :
    pyInt ds = some (digitsVal ds : Int) := by
  unfold pyInt
  rw [pyStrip_eq_self ds
    (fun c hcm => (isDigitC_props c (hd c (List.mem_of_mem_take hcm))).2.2.2.2)
    (fun c hcm => (isDigitC_props c
      (hd c (List.mem_reverse.mp (List.mem_of_mem_take hcm)))).2.2.2.2)]
  cases ds with
  | nil => exact absurd rfl hne
  | cons b bs =>
      obtain ⟨_, _, hplus, hminus, _⟩ :=
        isDigitC_props b (hd b (List.mem_cons_self _ _))
      simp only
      rw [if_neg hplus, if_neg hminus,
        if_pos (List.all_eq_true.mpr (fun c hcm => hd c hcm))]

/-- C6 is refuted: the byte field `-5` is not a non-negative decimal
number, yet `int()` accepts the sign, so the parser produces a record
with negative `stack_bytes` instead of skipping the line. -/
theorem claim_C6_counterexample :
    parse_su_line "a.c:1:2:f\t-5\tstatic".data =
      some ⟨"f", "a.c", 1, -5, "static"⟩ ∧
    ((-5 : Int) < 0) :=
  ⟨by decide, by decide⟩


/-- C6 (amended): when the record parser produces a `StackUsage`, its
`stack_bytes` is exactly the value `int()` assigns to the tab-separated
byte field — an optionally signed decimal integer, which may be
negative; a line whose byte field `int()` rejects is skipped.  (The
original claim's non-negativity holds only for sign-free byte fields.) -/
theorem claim_C6_amended (line : List Char) (u : StackUsage)
    (h : parse_su_line line = some u) :
    ∃ location bytes_str rest,
      splitTab (pyStrip line) = location :: bytes_str :: rest ∧
      pyInt bytes_str = some u.stack_bytes := by
  simp only [parse_su_line] at h
  split at h
  · cases h
  · split at h
    · split at h
      · cases h
      · split at h
        · cases h
        · rename_i xsp location bytes_str qualifier tail hsp x1 file_name
            line_digits func_name hm x2 sb hp
          refine ⟨location, bytes_str, qualifier :: tail, hsp, ?_⟩
          rw [hp, ← Option.some.inj h]
    · cases h

theorem claim_C6_amended_witness :
    ∃ location bytes_str rest,
      splitTab (pyStrip "a.c:1:2:g\t-7\tstatic".data) =
        location :: bytes_str :: rest ∧
      pyInt bytes_str =
        some ((⟨"g", "a.c", 1, -7, "static"⟩ : StackUsage).stack_bytes) :=
  claim_C6_amended "a.c:1:2:g\t-7\tstatic".data
    ⟨"g", "a.c", 1, -7, "static"⟩ (by decide)

/-- The first element of a non-empty list is its one-element take. -/
theorem take_one_cons {α : Type} (a : α) (l : List α) : (a :: l).take 1 = [a] := rfl

/-- The last element of a list is the one-element take of its reverse. -/
theorem reverse_take_one {α : Type} (X : List α) (b : α) :
    (X ++ [b]).reverse.take 1 = [b] := by
  rw [List.reverse_append]
  rfl

/-- Round-trip direction of the parser: a well-formed record line
`file:line:col:function<TAB>bytes<TAB>qualifier` parses to the record
whose fields are exactly the input's fields (the column is discarded,
the numeric fields carrying their decimal values). -/
theorem parse_su_line_roundtrip (file lineDs colDs fn bytesDs qual : List Char)
    (hfne : file ≠ [])
    (hfile : ∀ c ∈ file, c ≠ ':' ∧ c ≠ '\t' ∧ isWS c = false)
    (hlne : lineDs ≠ []) (hld : ∀ c ∈ lineDs, isDigitC c = true)
    (hcne : colDs ≠ []) (hcd : ∀ c ∈ colDs, isDigitC c = true)
    (hfnne : fn ≠ []) (hfn : ∀ c ∈ fn, c ≠ '\t')
    (hbne : bytesDs ≠ []) (hbd : ∀ c ∈ bytesDs, isDigitC c = true)
    (hqne : qual ≠ []) (hq : ∀ c ∈ qual, c ≠ '\t' ∧ isWS c = false) :
    parse_su_line
      ((file ++ ':' :: (lineDs ++ ':' :: (colDs ++ ':' :: fn))) ++
        '\t' :: (bytesDs ++ '\t' :: qual)) =
      some ⟨String.mk fn, String.mk file, digitsVal lineDs,
        (digitsVal bytesDs : Int), String.mk qual⟩ := by
  obtain ⟨fc, ft, rfl⟩ := List.exists_cons_of_ne_nil hfne
  obtain ⟨qi, qb, rfl⟩ := (List.eq_nil_or_concat qual).resolve_left hqne
  simp only [List.concat_eq_append] at hq ⊢
  have e1 : ((fc :: ft) ++ ':' :: (lineDs ++ ':' :: (colDs ++ ':' :: fn))) ++
      '\t' :: (bytesDs ++ '\t' :: (qi ++ [qb])) =
      fc :: ((ft ++ ':' :: (lineDs ++ ':' :: (colDs ++ ':' :: fn))) ++
        '\t' :: (bytesDs ++ '\t' :: (qi ++ [qb]))) := by
    simp [List.cons_append]
  have e2 : ((fc :: ft) ++ ':' :: (lineDs ++ ':' :: (colDs ++ ':' :: fn))) ++
      '\t' :: (bytesDs ++ '\t' :: (qi ++ [qb])) =
      (((fc :: ft) ++ ':' :: (lineDs ++ ':' :: (colDs ++ ':' :: fn))) ++
        '\t' :: (bytesDs ++ '\t' :: qi)) ++ [qb] := by
    simp [List.append_assoc]
  have hstrip :
      pyStrip (((fc :: ft) ++ ':' :: (lineDs ++ ':' :: (colDs ++ ':' :: fn))) ++
        '\t' :: (bytesDs ++ '\t' :: (qi ++ [qb]))) =
      ((fc :: ft) ++ ':' :: (lineDs ++ ':' :: (colDs ++ ':' :: fn))) ++
        '\t' :: (bytesDs ++ '\t' :: (qi ++ [qb])) := by
    apply pyStrip_eq_self
    · rw [e1, take_one_cons]
      intro c hc
      rw [List.mem_singleton.mp hc]
      exact (hfile fc (List.mem_cons_self _ _)).2.2
    · rw [e2, reverse_take_one]
      intro c hc
      rw [List.mem_singleton.mp hc]
      exact (hq qb (by simp)).2
  have hloc : ∀ c ∈ (fc :: ft) ++ ':' :: (lineDs ++ ':' :: (colDs ++ ':' :: fn)),
      c ≠ '\t' := by
    intro c hc
    rcases List.mem_append.mp hc with hc | hc
    · exact (hfile c hc).2.1
    · rcases List.mem_cons.mp hc with rfl | hc
      · decide
      · rcases List.mem_append.mp hc with hc | hc
        · exact (isDigitC_props c (hld c hc)).1
        · rcases List.mem_cons.mp hc with rfl | hc
          · decide
          · rcases List.mem_append.mp hc with hc | hc
            · exact (isDigitC_props c (hcd c hc)).1
            · rcases List.mem_cons.mp hc with rfl | hc
              · decide
              · exact hfn c hc
  have hsp : splitTab (((fc :: ft) ++ ':' :: (lineDs ++ ':' :: (colDs ++ ':' :: fn))) ++
      '\t' :: (bytesDs ++ '\t' :: (qi ++ [qb]))) =
      [(fc :: ft) ++ ':' :: (lineDs ++ ':' :: (colDs ++ ':' :: fn)),
        bytesDs, qi ++ [qb]] := by
    rw [splitTab_app _ _ hloc]
    rw [splitTab_app _ _ (fun c hc => (isDigitC_props c (hbd c hc)).1)]
    rw [splitTab_no_tab _ (fun c hc => (hq c hc).1)]
  simp only [parse_su_line]
  rw [hstrip, if_neg (by rw [e1]; simp), hsp]
  have hml := matchLoc_app (fc :: ft) [] lineDs colDs fn
    (fun c hc => (hfile c hc).1) (Or.inr (by simp)) hlne hld hcne hcd hfnne
  simp only [List.reverse_nil, List.nil_append] at hml
  simp only [hml, pyInt_digits bytesDs hbne hbd]

/-- Skip direction of the parser: a line with fewer than 3
tab-separated fields produces no record. -/
theorem parse_su_line_skip (line : List Char)
    (hlen : (splitTab line).length < 3) : parse_su_line line = none := by
  have hlen' : (splitTab (pyStrip line)).length < 3 := by
    rw [splitTab_length] at hlen ⊢
    have := count_pyStrip_le line '\t'
    omega
  simp only [parse_su_line]
  by_cases hl : pyStrip line = []
  · rw [if_pos hl]
  · rw [if_neg hl]
    cases hsp : splitTab (pyStrip line) with
    | nil => rfl
    | cons l0 rest =>
        cases rest with
        | nil => rfl
        | cons l1 rest2 =>
            cases rest2 with
            | nil => rfl
            | cons l2 rest3 =>
                rw [hsp] at hlen'
                simp only [List.length_cons] at hlen'
                omega

/-- C7: parser round-trip.  A well-formed record line of the shape
`file:line:column:function<TAB>bytes<TAB>qualifier` (colon-free,
whitespace-free file, decimal digit line/column/byte fields, tab-free
function and qualifier) parses to a `StackUsage` whose `function`,
`file`, `line`, `stack_bytes` and `qualifier` exactly match the input
fields, the column being discarded; and every line with fewer than 3
tab-separated fields produces no record. -/
theorem claim_C7 :
    (∀ (file lineDs colDs fn bytesDs qual : List Char),
      file ≠ [] → (∀ c ∈ file, c ≠ ':' ∧ c ≠ '\t' ∧ isWS c = false) →
      lineDs ≠ [] → (∀ c ∈ lineDs, isDigitC c = true) →
      colDs ≠ [] → (∀ c ∈ colDs, isDigitC c = true) →
      fn ≠ [] → (∀ c ∈ fn, c ≠ '\t') →
      bytesDs ≠ [] → (∀ c ∈ bytesDs, isDigitC c = true) →
      qual ≠ [] → (∀ c ∈ qual, c ≠ '\t' ∧ isWS c = false) →
      parse_su_line ((file ++ ':' :: (lineDs ++ ':' :: (colDs ++ ':' :: fn))) ++
          '\t' :: (bytesDs ++ '\t' :: qual)) =
        some ⟨String.mk fn, String.mk file, digitsVal lineDs,
          (digitsVal bytesDs : Int), String.mk qual⟩) ∧
    (∀ line : List Char, (splitTab line).length < 3 → parse_su_line line = none) :=
  ⟨parse_su_line_roundtrip, parse_su_line_skip⟩

theorem claim_C7_witness :
    parse_su_line "m.c:12:3:poll\t256\tstatic".data =
      some ⟨"poll", "m.c", 12, 256, "static"⟩ ∧
    parse_su_line "m.c:12:3:poll\t256".data = none := by
  constructor
  · have e : "m.c:12:3:poll\t256\tstatic".data =
        ("m.c".data ++ ':' :: ("12".data ++ ':' :: ("3".data ++ ':' :: "poll".data))) ++
          '\t' :: ("256".data ++ '\t' :: "static".data) := by decide
    have h := claim_C7.1 "m.c".data "12".data "3".data "poll".data "256".data "static".data
      (by decide) (by decide) (by decide) (by decide) (by decide) (by decide)
      (by decide) (by decide) (by decide) (by decide) (by decide) (by decide)
    rw [e, h]
    decide
  · exact claim_C7.2 "m.c:12:3:poll\t256".data (by decide)
